import Mathlib

/-!
Verification of the reversible case-folding codec in `src/case_encoder.h`
(namespace sentencepiece::normalizer, final revision of the file: classes
`CaseEncoder`, `IdentityCaseEncoder`, `UpperCaseEncoder`, `UpperCaseDecoder`
and the factory `CaseEncoder::Create`).

Shallow embedding conventions:
- a byte is a `Nat` (tag bytes: 85 = U, 84 = T, 76 = L, 80 = P, 32 = space);
- an `absl::string_view` fragment is its byte content, a `List Nat`;
- a unit (fragment, consumedBytes) is a `List Nat × Nat`;
- operations whose C++ source has undefined behaviour on some inputs
  (out-of-bounds reads, `front()`/index on an empty/short deque,
  `remove_prefix`/pointer arithmetic past the end) return `Option` and
  yield `none` exactly on those inputs;
- the external Normalizer collaborator (charset-rule engine) is not part of
  this repository; its encode-mode and decode-mode behaviours are modelled
  from the spec (`encNorm`, `decNorm` below).
-/

/-- State of `UpperCaseEncoder`: `buffers_` (owned rewrite buffers),
`pieces_` (the pending deque of units), `flush_`, `countU_`. -/
structure EncState where
  buffers : List (List Nat)
  pieces : List (List Nat × Nat)
  flush : Bool
  countU : Nat
deriving DecidableEq, Repr

/-- A freshly constructed `UpperCaseEncoder`. -/
def encInit : EncState := ⟨[], [], false, 0⟩

/-- The in-place strip loop of `UpperCaseEncoder::fixUs` for run length > 1:
`for(int i = 1; i < countU_; ++i) pieces_[i].first = {data()+1, size()-1}`.
`stripTails n l` strips the leading tag byte of the first `n` units of `l`;
`none` models the undefined behaviour of indexing past the deque end or of
`size() - 1` underflow on an empty fragment. -/
def stripTails : Nat → List (List Nat × Nat) → Option (List (List Nat × Nat))
  | 0, l => some l
  | _ + 1, [] => none
  | n + 1, (f, m) :: l =>
    match f with
    | [] => none
    | _ :: ft =>
      match stripTails n l with
      | none => none
      | some r => some ((ft, m) :: r)

/-- `UpperCaseEncoder::fixUs`: run length 1 rewrites the front unit to an
owned Title copy appended to `buffers_`; run length > 1 strips the tag byte
of queued units 1 .. countU_-1; run length 0 is a no-op.  `none` models the
undefined behaviour of `front()` on an empty deque or of writing byte 0 of
an empty copy. -/
def fixUs (s : EncState) : Option EncState :=
  if s.countU = 1 then
    match s.pieces with
    | [] => none
    | (f, n) :: rest =>
      match f with
      | [] => none
      | _ :: ft =>
        some { s with buffers := s.buffers ++ [84 :: ft],
                      pieces := (84 :: ft, n) :: rest }
  else if 1 < s.countU then
    match s.pieces with
    | [] => none
    | q :: rest =>
      match stripTails (s.countU - 1) rest with
      | none => none
      | some r => some { s with pieces := q :: r }
  else
    some s

/-- `UpperCaseEncoder::push(p, last)`.  The C++ reads `p.first.data()[0]`
unconditionally; `none` models that read on an empty fragment (and a failing
`fixUs`).  Branches: U enqueues unresolved; P resolves and enqueues the
tag-stripped fragment; space resolves and enqueues unchanged; otherwise
resolves and, when the (pre-reset) run counter exceeds 1, enqueues an owned
"L"-prefixed copy; `last` forces `flush_ = true` at the end. -/
def push (p : List Nat × Nat) (last : Bool) (s : EncState) : Option EncState :=
  match p.1 with
  | [] => none
  | b :: rest =>
    let r : Option EncState :=
      if b = 85 then
        some { s with pieces := s.pieces ++ [p], countU := s.countU + 1, flush := false }
      else if b = 80 then
        match fixUs s with
        | none => none
        | some t => some { t with pieces := t.pieces ++ [(rest, p.2)], countU := 0, flush := true }
      else if b = 32 then
        match fixUs s with
        | none => none
        | some t => some { t with pieces := t.pieces ++ [p], countU := 0, flush := true }
      else
        match fixUs s with
        | none => none
        | some t =>
          if 1 < s.countU then
            some { t with buffers := t.buffers ++ [76 :: p.1],
                          pieces := t.pieces ++ [(76 :: p.1, p.2)], countU := 0, flush := true }
          else
            some { t with pieces := t.pieces ++ [p], countU := 0, flush := true }
    match r with
    | none => none
    | some s2 => some (if last then { s2 with flush := true } else s2)

/-- `UpperCaseEncoder::empty()`: true iff the deque is empty or flush is unset. -/
def emptyE (s : EncState) : Bool := s.pieces.isEmpty || !s.flush

/-- `UpperCaseEncoder::pop()`: dequeues the front unit; `none` models the
undefined behaviour of `front()`/`pop_front()` on an empty deque. -/
def pop (s : EncState) : Option ((List Nat × Nat) × EncState) :=
  match s.pieces with
  | [] => none
  | q :: rest => some (q, { s with pieces := rest })

/-- The driver's drain loop: `while (!empty()) pop()`, returning the popped
units in order and the final state (fuelled by the queue length). -/
def drainLoop : Nat → EncState → List (List Nat × Nat) × EncState
  | 0, s => ([], s)
  | n + 1, s =>
    if emptyE s then ([], s)
    else
      match pop s with
      | none => ([], s)
      | some (q, t) =>
        let r := drainLoop n t
        (q :: r.1, r.2)

def drain (s : EncState) : List (List Nat × Nat) × EncState := drainLoop s.pieces.length s

/-- Modelled from the spec: the external Normalizer collaborator in encode
mode (absent from src/).  Per original byte it yields the next tagged,
case-folded fragment and the consumed byte count: an uppercase letter
becomes tag U + its lowercase fold, punctuation becomes tag P + itself,
anything else (lowercase, space, digit) passes through untagged. -/
def encNorm (b : Nat) : List Nat × Nat :=
  if 65 ≤ b ∧ b ≤ 90 then ([85, b + 32], 1)
  else if 33 ≤ b ∧ b ≤ 47 then ([80, b], 1)
  else ([b], 1)

/-- The driver loop of the normalization pipeline around the encoder:
push each unit (`isLast` on the final one), drain eligible units after
every push, and collect the popped units in order. -/
def sessionLoop : List (List Nat × Nat) → EncState → Option (List (List Nat × Nat))
  | [], _ => some []
  | [u], s =>
    match push u true s with
    | none => none
    | some t => some (drain t).1
  | u :: v :: us, s =>
    match push u false s with
    | none => none
    | some t =>
      match sessionLoop (v :: us) (drain t).2 with
      | none => none
      | some out => some ((drain t).1 ++ out)

/-- Concatenation of the fragments of a list of popped units: the driver's
normalized-text buffer. -/
def flattenU (out : List (List Nat × Nat)) : List Nat := (out.map Prod.fst).flatten

/-- Whole-session encoding of an original byte string: normalize each byte
(`encNorm`), run the push/drain driver, and concatenate popped fragments. -/
def encode (s : List Nat) : Option (List Nat) :=
  match sessionLoop (s.map encNorm) encInit with
  | none => none
  | some out => some (flattenU out)

/-- One driver step used by the mid-session protocol: push a unit
(not the last one) and drain whatever became eligible. -/
def stepT (s : EncState) (u : List Nat × Nat) : Option EncState :=
  match push u false s with
  | none => none
  | some t => some (drain t).2

/-- Driver-protocol trace: fold `stepT` over a list of pushed units from a
fresh encoder. -/
def runTrace (us : List (List Nat × Nat)) : Option EncState :=
  us.foldlM stepT encInit

/-- The maximal all-Upper-tagged suffix of a pushed-unit trace: the current
unresolved run, in push order. -/
def upperSuffix (us : List (List Nat × Nat)) : List (List Nat × Nat) :=
  us.foldl (fun acc u => if u.1.head? = some 85 then acc ++ [u] else []) []

/-- State of `IdentityCaseEncoder`: the single slot `p_` and `empty_`. -/
structure IdSt where
  p : List Nat × Nat
  empty : Bool
deriving DecidableEq, Repr

/-- A freshly constructed `IdentityCaseEncoder` (`p_` default-constructed). -/
def idInit : IdSt := ⟨([], 0), true⟩

/-- `IdentityCaseEncoder::push`: overwrite the slot, clear the flag. -/
def idPush (u : List Nat × Nat) (_last : Bool) (_s : IdSt) : IdSt := ⟨u, false⟩

/-- `IdentityCaseEncoder::pop`: sets the flag and returns the slot — with no
emptiness check, so it returns the stale slot even when already empty. -/
def idPop (s : IdSt) : (List Nat × Nat) × IdSt := (s.p, ⟨s.p, true⟩)

/-- `IdentityCaseEncoder::empty`. -/
def idEmpty (s : IdSt) : Bool := s.empty

/-- Type of the injected upstream matching function. -/
def Normalizer : Type := List Nat → List Nat × Nat

/-- The base-class `CaseEncoder` method inherited unchanged by
`IdentityCaseEncoder`: return `normalizer_(input)`, touching no state. -/
def identDelegate (nm : Normalizer) (s : IdSt) (input : List Nat) :
    (List Nat × Nat) × IdSt := (nm input, s)

/-- The base-class `CaseEncoder` method inherited unchanged by
`UpperCaseEncoder`: return `normalizer_(input)`, touching no state. -/
def encDelegate (nm : Normalizer) (s : EncState) (input : List Nat) :
    (List Nat × Nat) × EncState := (nm input, s)

/-- Modelled from the spec: the external Normalizer collaborator in decode
mode (absent from src/).  On tag U or T followed by a folded (lowercase)
letter it produces the original uppercase letter consuming both bytes;
otherwise it passes a single byte through. -/
def decNorm : List Nat → List Nat × Nat
  | [] => ([], 0)
  | [b] => ([b], 1)
  | b :: b2 :: _ =>
    if (b = 85 ∨ b = 84) ∧ (97 ≤ b2 ∧ b2 ≤ 122) then ([b2 - 32], 2) else ([b], 1)

/-- Overwrite the first byte of a view (`const_cast<char&>(input_[0]) = c`).
Only reached on non-empty views in the decoder (the write would be undefined
behaviour otherwise). -/
def setHd (v : Nat) : List Nat → List Nat
  | [] => []
  | _ :: t => v :: t

/-- One call of the decoding core of `UpperCaseDecoder`'s overridden
method (the part after the first-call buffering), acting on the remaining
internal view `input_` and the run flag `state_` (an int that only ever
holds 0 or 1, modelled as `Bool`).  Returns the (fragment, consumed) pair
handed to the driver and the updated view and state; `none` models the
out-of-bounds `input_[0]` read on an exhausted view. -/
def decStep (inp : List Nat) (st : Bool) : Option ((List Nat × Nat) × (List Nat × Bool)) :=
  match inp with
  | [] => none
  | b :: _ =>
    let p := decNorm inp
    if b = 85 then
      if st then
        if 1 < p.2 then some ((p.1, p.2 - 1), (setHd 85 (inp.drop (p.2 - 1)), true))
        else some ((p.1.drop 1, 0), (inp.drop p.2, false))
      else some ((p.1, p.2), (setHd 85 (inp.drop (p.2 - 1)), true))
    else if b = 76 then some ((p.1.drop 1, p.2), (inp.drop p.2, false))
    else some ((p.1, p.2), (inp.drop p.2, false))

/-- The driver loop around the decoder: call the decoding step until the
internal view is exhausted, concatenating the returned fragments (fuelled). -/
def decodeLoopF : Nat → List Nat → Bool → List Nat
  | 0, _, _ => []
  | fuel + 1, inp, st =>
    match decStep inp st with
    | none => []
    | some (ret, inp2, st2) => ret.1 ++ decodeLoopF fuel inp2 st2

/-- Whole-session decoding of an encoded byte string (the first decoder call
copies the whole input into `buffer_`; the loop then runs on the internal
view).  The fuel bound `2 * length + 2` dominates the step count: every
step consumes a byte except entering a run, which takes one extra step. -/
def decode (l : List Nat) : List Nat := decodeLoopF (2 * l.length + 2) l false

/-- State of `UpperCaseDecoder` as seen by a single call: whether `buffer_`
has been allocated, the remaining view `input_` (with the in-place tag
rewrites applied), and `state_`. -/
structure DecState where
  started : Bool
  inp : List Nat
  st : Bool
deriving DecidableEq, Repr

/-- A freshly constructed `UpperCaseDecoder`. -/
def decInit : DecState := ⟨false, [], false⟩

/-- `UpperCaseDecoder`'s overridden normalize-prefix method, one call:
buffer the whole input on first use, then run the decoding step on the
internal view. -/
def decCall (d : DecState) (input : List Nat) : Option ((List Nat × Nat) × DecState) :=
  let d1 := if d.started then d else { started := true, inp := input, st := d.st }
  match decStep d1.inp d1.st with
  | none => none
  | some (ret, inp2, st2) => some (ret, { d1 with inp := inp2, st := st2 })

/-- The three codec variants a factory call can produce. -/
inductive CodecKind where
  | identity
  | encoder
  | decoder
deriving DecidableEq, Repr

/-- `CaseEncoder::Create(encodeCase, decodeCase)`; `none` models the
`nullptr` returned (with an error log) when both flags are set. -/
def Create (encodeCase decodeCase : Bool) : Option CodecKind :=
  if encodeCase && decodeCase then none
  else if encodeCase then some CodecKind.encoder
  else if decodeCase then some CodecKind.decoder
  else some CodecKind.identity

/-- A supported original byte: ASCII uppercase, lowercase, space,
punctuation (33..47) or digit. -/
def SupportedByte (b : Nat) : Prop :=
  (65 ≤ b ∧ b ≤ 90) ∨ (97 ≤ b ∧ b ≤ 122) ∨ b = 32 ∨ (33 ≤ b ∧ b ≤ 47) ∨ (48 ≤ b ∧ b ≤ 57)

instance : DecidablePred SupportedByte := fun b => by unfold SupportedByte; infer_instance

/-- A supported original input. -/
def Supported (s : List Nat) : Prop := ∀ b ∈ s, SupportedByte b

instance (s : List Nat) : Decidable (Supported s) := by unfold Supported; infer_instance

/-- The pushed unit produced by `encNorm` for an uppercase letter. -/
def unitOf (u : Nat) : List Nat × Nat := ([85, u + 32], 1)

/-- Encoded bytes of an unresolved (end-of-input) Upper run: every unit
still carries its U tag. -/
def unres (pre : List Nat) : List Nat := pre.flatMap (fun u => [85, u + 32])

/-- Encoded bytes of a resolved run of original uppercase letters: length 1
becomes Title + fold, length ≥ 2 keeps one leading U tag followed by the
plain folds. -/
def resolve : List Nat → List Nat
  | [] => []
  | [u] => [84, u + 32]
  | u :: tl => 85 :: (u + 32) :: tl.map (· + 32)

/-- Encoded bytes contributed by the unit terminating a run: punctuation and
space pass as the bare byte; a lower/neutral terminator after a run of
length > 1 gets the L boundary marker prepended. -/
def bfrag (pre : List Nat) (b : Nat) : List Nat :=
  if (33 ≤ b ∧ b ≤ 47) ∨ b = 32 then [b]
  else if 1 < pre.length then [76, b] else [b]

/-- Closed-form characterization of the encoder session output, with `pre`
the uppercase letters of the currently buffered unresolved run. -/
def encModel : List Nat → List Nat → List Nat
  | _, [] => []
  | pre, [b] =>
    if 65 ≤ b ∧ b ≤ 90 then unres (pre ++ [b]) else resolve pre ++ bfrag pre b
  | pre, b :: c :: bs =>
    if 65 ≤ b ∧ b ≤ 90 then encModel (pre ++ [b]) (c :: bs)
    else resolve pre ++ bfrag pre b ++ encModel [] (c :: bs)

/-- The encoder state holding an unresolved run of original letters `pre`. -/
def stateOf (pre : List Nat) (B : List (List Nat)) (fl : Bool) : EncState :=
  ⟨B, pre.map unitOf, fl, pre.length⟩

/-- The pending queue right after `fixUs` resolves a run of original
letters `pre`. -/
def resolvePieces : List Nat → List (List Nat × Nat)
  | [] => []
  | [u] => [([84, u + 32], 1)]
  | u :: tl => unitOf u :: tl.map (fun w => ([w + 32], 1))

/-- The owned buffers right after `fixUs` resolves a run of original
letters `pre` (a Title copy is allocated exactly for a length-1 run). -/
def resolveBufs (pre : List Nat) (B : List (List Nat)) : List (List Nat) :=
  match pre with
  | [u] => B ++ [[84, u + 32]]
  | _ => B

/-! ## Basic lemmas about the drain loop, `push` and `fixUs` -/

theorem drainLoop_spec (ps : List (List Nat × Nat)) :
    ∀ (n : Nat) (s : EncState), s.pieces = ps → ps.length ≤ n →
      drainLoop n s = if s.flush = true then (s.pieces, { s with pieces := [] }) else ([], s) := by
  induction ps with
  | nil =>
    intro n s hp _
    obtain ⟨B, P, f, c⟩ := s
    simp only at hp
    subst hp
    cases n with
    | zero => cases f <;> simp [drainLoop]
    | succ m => cases f <;> simp [drainLoop, emptyE]
  | cons q rest ih =>
    intro n s hp hn
    obtain ⟨B, P, f, c⟩ := s
    simp only at hp
    subst hp
    cases n with
    | zero => simp at hn
    | succ m =>
      cases f with
      | false => simp [drainLoop, emptyE]
      | true =>
        have hrec := ih m ⟨B, rest, true, c⟩ rfl (by simpa using hn)
        simp only [drainLoop, emptyE, List.isEmpty_cons, Bool.not_true, Bool.or_false,
          Bool.false_eq_true, if_false, pop]
        simp only at hrec
        simp [hrec]

theorem drain_eq (s : EncState) :
    drain s = if s.flush = true then (s.pieces, { s with pieces := [] }) else ([], s) :=
  drainLoop_spec s.pieces s.pieces.length s rfl le_rfl

theorem push_nil (n : Nat) (last : Bool) (s : EncState) : push ([], n) last s = none := rfl

theorem push_up (rest : List Nat) (n : Nat) (last : Bool) (s : EncState) :
    push (85 :: rest, n) last s =
      some { s with pieces := s.pieces ++ [(85 :: rest, n)], countU := s.countU + 1,
                    flush := last } := by
  cases last <;> simp [push]

theorem push_punct (rest : List Nat) (n : Nat) (last : Bool) (s t : EncState)
    (h : fixUs s = some t) :
    push (80 :: rest, n) last s =
      some { t with pieces := t.pieces ++ [(rest, n)], countU := 0, flush := true } := by
  cases last <;> simp [push, h]

theorem push_space (rest : List Nat) (n : Nat) (last : Bool) (s t : EncState)
    (h : fixUs s = some t) :
    push (32 :: rest, n) last s =
      some { t with pieces := t.pieces ++ [(32 :: rest, n)], countU := 0, flush := true } := by
  cases last <;> simp [push, h]

theorem push_other (b : Nat) (rest : List Nat) (n : Nat) (last : Bool) (s t : EncState)
    (hb85 : b ≠ 85) (hb80 : b ≠ 80) (hb32 : b ≠ 32) (h : fixUs s = some t) :
    push (b :: rest, n) last s =
      some (if 1 < s.countU then
              { t with buffers := t.buffers ++ [76 :: b :: rest],
                       pieces := t.pieces ++ [(76 :: b :: rest, n)], countU := 0, flush := true }
            else
              { t with pieces := t.pieces ++ [(b :: rest, n)], countU := 0, flush := true }) := by
  by_cases hc : 1 < s.countU <;> cases last <;> simp [push, hb85, hb80, hb32, h, hc]

theorem stripTails_units (xs : List Nat) :
    stripTails xs.length (xs.map unitOf) = some (xs.map (fun w => ([w + 32], 1))) := by
  induction xs with
  | nil => rfl
  | cons x xs ih => simp [stripTails, unitOf, ih]

theorem fixUs_stateOf (pre : List Nat) (B : List (List Nat)) (fl : Bool) :
    fixUs (stateOf pre B fl) = some ⟨resolveBufs pre B, resolvePieces pre, fl, pre.length⟩ := by
  match pre with
  | [] => rfl
  | [u] => rfl
  | u :: v :: tl =>
    have h2 := stripTails_units (v :: tl)
    simp only [List.length_cons, List.map_cons] at h2
    rw [show unitOf v = ([85, v + 32], 1) from rfl] at h2
    simp only [fixUs, stateOf, resolvePieces, resolveBufs, List.map_cons, List.length_cons]
    rw [if_neg (by omega), if_pos (by omega)]
    rw [show unitOf u = ([85, u + 32], 1) from rfl, show unitOf v = ([85, v + 32], 1) from rfl]
    rw [show tl.length + 1 + 1 - 1 = tl.length + 1 by omega]
    rw [h2]

theorem flattenU_append (a b : List (List Nat × Nat)) :
    flattenU (a ++ b) = flattenU a ++ flattenU b := by simp [flattenU]

theorem flattenU_units (xs : List Nat) : flattenU (xs.map unitOf) = unres xs := by
  induction xs with
  | nil => rfl
  | cons x xs ih => simp_all [flattenU, unitOf, unres]

theorem flattenU_singles (xs : List Nat) :
    flattenU (xs.map (fun w => ([w + 32], 1))) = xs.map (· + 32) := by
  induction xs with
  | nil => rfl
  | cons x xs ih => simp_all [flattenU]

theorem flattenU_resolvePieces (pre : List Nat) :
    flattenU (resolvePieces pre) = resolve pre := by
  match pre with
  | [] => rfl
  | [u] => simp [resolvePieces, resolve, flattenU]
  | u :: v :: tl =>
    have := flattenU_singles tl
    simp only [flattenU] at this ⊢
    simp only [resolvePieces, resolve, List.map_cons, List.flatten_cons, unitOf]
    simp only [List.map_map] at this ⊢
    simp [this]

theorem push_boundary (b : Nat) (hup : ¬(65 ≤ b ∧ b ≤ 90)) (last : Bool)
    (pre : List Nat) (B : List (List Nat)) (fl : Bool) :
    ∃ B2, push (encNorm b) last (stateOf pre B fl) =
      some ⟨B2, resolvePieces pre ++ [(bfrag pre b, 1)], true, 0⟩ := by
  have hfix := fixUs_stateOf pre B fl
  have hb85 : b ≠ 85 := by rintro rfl; exact hup ⟨by omega, by omega⟩
  have hb80 : b ≠ 80 := by rintro rfl; exact hup ⟨by omega, by omega⟩
  by_cases hpu : 33 ≤ b ∧ b ≤ 47
  · have henc : encNorm b = ([80, b], 1) := by
      simp only [encNorm]
      rw [if_neg hup, if_pos hpu]
    rw [henc, push_punct [b] 1 last _ _ hfix]
    exact ⟨resolveBufs pre B, by simp [bfrag, hpu]⟩
  · by_cases h32 : b = 32
    · subst h32
      have henc : encNorm 32 = ([32], 1) := by simp [encNorm]
      rw [henc, push_space [] 1 last _ _ hfix]
      exact ⟨resolveBufs pre B, by simp [bfrag]⟩
    · have henc : encNorm b = ([b], 1) := by
        simp only [encNorm]
        rw [if_neg hup, if_neg hpu]
      rw [henc, push_other b [] 1 last _ _ hb85 hb80 h32 hfix]
      by_cases hlen : 1 < pre.length
      · refine ⟨resolveBufs pre B ++ [[76, b]], ?_⟩
        rw [if_pos (by simpa [stateOf] using hlen)]
        simp [bfrag, hpu, h32, hlen]
      · refine ⟨resolveBufs pre B, ?_⟩
        rw [if_neg (by simpa [stateOf] using hlen)]
        simp [bfrag, hpu, h32, hlen]

theorem sess_eq (l : List Nat) : ∀ (pre : List Nat) (B : List (List Nat)) (fl : Bool),
    ∃ out, sessionLoop (l.map encNorm) (stateOf pre B fl) = some out ∧
      flattenU out = encModel pre l := by
  induction l with
  | nil => exact fun pre B fl => ⟨[], rfl, rfl⟩
  | cons b l2 ih =>
    intro pre B fl
    cases l2 with
    | nil =>
      by_cases hup : 65 ≤ b ∧ b ≤ 90
      · have henc : encNorm b = ([85, b + 32], 1) := by simp [encNorm, hup]
        refine ⟨(pre ++ [b]).map unitOf, ?_, ?_⟩
        · have hp := push_up [b + 32] 1 true (stateOf pre B fl)
          simp only [stateOf] at hp
          simp only [List.map_cons, List.map_nil, henc, sessionLoop, stateOf, hp]
          rw [drain_eq]
          simp [unitOf]
        · rw [flattenU_units]
          simp [encModel, hup]
      · obtain ⟨B2, hpush⟩ := push_boundary b hup true pre B fl
        refine ⟨resolvePieces pre ++ [(bfrag pre b, 1)], ?_, ?_⟩
        · simp only [List.map_cons, List.map_nil, sessionLoop, hpush]
          rw [drain_eq]
          simp
        · rw [flattenU_append, flattenU_resolvePieces]
          simp only [encModel]
          rw [if_neg hup]
          simp [flattenU]
    | cons c bs =>
      by_cases hup : 65 ≤ b ∧ b ≤ 90
      · have henc : encNorm b = ([85, b + 32], 1) := by simp [encNorm, hup]
        obtain ⟨out2, h2, hf2⟩ := ih (pre ++ [b]) B false
        have hst : stateOf (pre ++ [b]) B false =
            ⟨B, List.map unitOf pre ++ [([85, b + 32], 1)], false, pre.length + 1⟩ := by
          simp [stateOf, unitOf]
        rw [hst] at h2
        simp only [List.map_cons] at h2
        refine ⟨out2, ?_, ?_⟩
        · have hp := push_up [b + 32] 1 false (stateOf pre B fl)
          simp only [stateOf] at hp
          simp only [List.map_cons, sessionLoop, henc, stateOf, hp]
          rw [drain_eq]
          simp only [Bool.false_eq_true, if_false]
          simp [h2]
        · rw [hf2]
          simp only [encModel]
          rw [if_pos hup]
      · obtain ⟨B2, hpush⟩ := push_boundary b hup false pre B fl
        obtain ⟨out2, h2, hf2⟩ := ih [] B2 true
        have hst : stateOf [] B2 true = ⟨B2, [], true, 0⟩ := by simp [stateOf]
        rw [hst] at h2
        simp only [List.map_cons] at h2
        refine ⟨(resolvePieces pre ++ [(bfrag pre b, 1)]) ++ out2, ?_, ?_⟩
        · simp only [List.map_cons, sessionLoop, hpush]
          rw [drain_eq]
          simp [h2]
        · rw [flattenU_append, flattenU_append, flattenU_resolvePieces, hf2]
          simp only [encModel]
          rw [if_neg hup]
          simp [flattenU]

theorem encode_eq (s : List Nat) : encode s = some (encModel [] s) := by
  obtain ⟨out, h, hf⟩ := sess_eq s [] [] false
  have : stateOf [] [] false = encInit := rfl
  rw [this] at h
  simp [encode, h, hf]

/-! ## Structural lemmas about the encoder output shape -/

theorem encModel_cons_nonup (b : Nat) (pre l : List Nat) (hup : ¬(65 ≤ b ∧ b ≤ 90)) :
    encModel pre (b :: l) = resolve pre ++ bfrag pre b ++ encModel [] l := by
  cases l with
  | nil => simp [encModel, hup]
  | cons c bs =>
    simp only [encModel]
    rw [if_neg hup]

theorem encModel_cons_up (b : Nat) (pre l : List Nat) (hup : 65 ≤ b ∧ b ≤ 90) (hl : l ≠ []) :
    encModel pre (b :: l) = encModel (pre ++ [b]) l := by
  cases l with
  | nil => exact absurd rfl hl
  | cons c bs =>
    simp only [encModel]
    rw [if_pos hup]

theorem encModel_all_up (us : List Nat) : ∀ (pre : List Nat), us ≠ [] →
    (∀ u ∈ us, 65 ≤ u ∧ u ≤ 90) → encModel pre us = unres (pre ++ us) := by
  induction us with
  | nil => intro pre h _; exact absurd rfl h
  | cons u tl ih =>
    intro pre _ hall
    cases tl with
    | nil => simp [encModel, hall u (by simp)]
    | cons v tl2 =>
      rw [encModel_cons_up u pre (v :: tl2) (hall u (by simp)) (by simp)]
      rw [ih (pre ++ [u]) (by simp) (fun x hx => hall x (by simp [hx]))]
      simp

theorem encModel_chain (us : List Nat) : ∀ (pre l : List Nat),
    (∀ u ∈ us, 65 ≤ u ∧ u ≤ 90) → l ≠ [] →
    encModel pre (us ++ l) = encModel (pre ++ us) l := by
  induction us with
  | nil => intro pre l _ _; simp
  | cons u tl ih =>
    intro pre l hall hl
    have htl : tl ++ l ≠ [] := by simp [hl]
    rw [List.cons_append, encModel_cons_up u pre (tl ++ l) (hall u (by simp)) htl]
    rw [ih (pre ++ [u]) l (fun x hx => hall x (by simp [hx])) hl]
    simp

theorem unres_length (us : List Nat) : (unres us).length = 2 * us.length := by
  induction us with
  | nil => rfl
  | cons u tl ih => simp [unres, List.flatMap_cons] at ih ⊢; omega

/-! ## Lemmas about the decoding loop -/

theorem decodeLoopF_nil (f : Nat) (st : Bool) : decodeLoopF f [] st = [] := by
  cases f <;> simp [decodeLoopF, decStep]

theorem decB1 (f c : Nat) (t : List Nat) (h85 : c ≠ 85) (h84 : c ≠ 84) (h76 : c ≠ 76) :
    decodeLoopF (f + 1) (c :: t) false = c :: decodeLoopF f t false := by
  cases t <;> simp [decodeLoopF, decStep, decNorm, h85, h84, h76]

theorem decB2 (f u : Nat) (t : List Nat) (hl : 97 ≤ u) (hr : u ≤ 122) :
    decodeLoopF (f + 1) (84 :: u :: t) false = (u - 32) :: decodeLoopF f t false := by
  simp [decodeLoopF, decStep, decNorm, hl, hr]

theorem decBm (f : Nat) (t : List Nat) :
    decodeLoopF (f + 1) (76 :: t) false = decodeLoopF f t false := by
  cases t <;> simp [decodeLoopF, decStep, decNorm]

theorem decR (fs : List Nat) : ∀ (t : List Nat) (f : Nat),
    (∀ x ∈ fs, 97 ≤ x ∧ x ≤ 122) →
    (t = [] ∨ ∃ h tt, t = h :: tt ∧ ¬(97 ≤ h ∧ h ≤ 122)) →
    decodeLoopF ((fs.length + 1) + f) (85 :: (fs ++ t)) true =
      fs.map (· - 32) ++ decodeLoopF f t false := by
  induction fs with
  | nil =>
    intro t f _ ht
    have harith : ([] : List Nat).length + 1 + f = f + 1 := by
      simp only [List.length_nil]
      omega
    rw [harith]
    rcases ht with rfl | ⟨h, tt, rfl, hh⟩
    · simp [decodeLoopF, decStep, decNorm, decodeLoopF_nil]
    · simp [decodeLoopF, decStep, decNorm, hh]
  | cons g gs ih =>
    intro t f hall ht
    have hg := hall g (by simp)
    have harith : (g :: gs).length + 1 + f = ((gs.length + 1) + f) + 1 := by simp; omega
    rw [harith]
    have hstep : decStep (85 :: (g :: gs ++ t)) true =
        some ((([g - 32] : List Nat), 1), (85 :: (gs ++ t), true)) := by
      simp [decStep, decNorm, hg.1, hg.2, setHd]
    simp only [List.cons_append] at hstep ⊢
    simp only [decodeLoopF, hstep]
    rw [ih t f (fun x hx => hall x (by simp [hx])) ht]
    simp

theorem decB3 (f f1 : Nat) (fs t : List Nat) (h1 : 97 ≤ f1 ∧ f1 ≤ 122)
    (hfs : ∀ x ∈ fs, 97 ≤ x ∧ x ≤ 122)
    (ht : t = [] ∨ ∃ h tt, t = h :: tt ∧ ¬(97 ≤ h ∧ h ≤ 122)) :
    decodeLoopF ((fs.length + 2) + f) (85 :: f1 :: (fs ++ t)) false =
      (f1 - 32) :: (fs.map (· - 32) ++ decodeLoopF f t false) := by
  have harith : fs.length + 2 + f = ((fs.length + 1) + f) + 1 := by omega
  rw [harith]
  have hstep : decStep (85 :: f1 :: (fs ++ t)) false =
      some ((([f1 - 32] : List Nat), 2), (85 :: (fs ++ t), true)) := by
    simp [decStep, decNorm, h1.1, h1.2, setHd]
  simp only [decodeLoopF, hstep]
  rw [decR fs t f hfs ht]
  simp

theorem decB4 (us : List Nat) : ∀ (f : Nat), (∀ u ∈ us, 65 ≤ u ∧ u ≤ 90) →
    decodeLoopF (2 * us.length + f) (unres us) false = us := by
  induction us with
  | nil => intro f _; simp [unres, decodeLoopF_nil]
  | cons u tl ih =>
    intro f hall
    have hu := hall u (by simp)
    have hunres : unres (u :: tl) = 85 :: (u + 32) :: unres tl := by
      simp [unres, List.flatMap_cons]
    have harith : 2 * (u :: tl).length + f = ((2 * tl.length + f) + 1) + 1 := by simp; omega
    rw [hunres, harith]
    have hl : 97 ≤ u + 32 := by omega
    have hr : u + 32 ≤ 122 := by omega
    have hstep1 : decStep (85 :: (u + 32) :: unres tl) false =
        some ((([u + 32 - 32] : List Nat), 2), (85 :: unres tl, true)) := by
      simp [decStep, decNorm, setHd, hl, hr]
    have hstep2 : decStep (85 :: unres tl) true =
        some ((([] : List Nat), 0), (unres tl, false)) := by
      cases tl with
      | nil => simp [decStep, decNorm, unres]
      | cons v tl2 =>
        have : unres (v :: tl2) = 85 :: (v + 32) :: unres tl2 := by
          simp [unres, List.flatMap_cons]
        rw [this]
        simp [decStep, decNorm]
    simp only [decodeLoopF, hstep1, hstep2]
    rw [ih f (fun x hx => hall x (by simp [hx]))]
    have : u + 32 - 32 = u := by omega
    simp [this]

theorem dropWhile_head_false (p : Nat → Bool) : ∀ (l : List Nat) (c : Nat) (t : List Nat),
    l.dropWhile p = c :: t → p c = false := by
  intro l
  induction l with
  | nil => intro c t h; simp [List.dropWhile] at h
  | cons a l ih =>
    intro c t h
    by_cases hpa : p a = true
    · rw [List.dropWhile_cons, if_pos hpa] at h
      exact ih c t h
    · rw [List.dropWhile_cons, if_neg hpa] at h
      injection h with h1 _
      subst h1
      exact Bool.eq_false_iff.mpr hpa

theorem decM (n : Nat) : ∀ (s : List Nat), s.length ≤ n → Supported s →
    ∀ f, decodeLoopF ((encModel [] s).length + f) (encModel [] s) false = s := by
  induction n with
  | zero =>
    intro s hs _ f
    have hnil : s = [] := List.length_eq_zero.mp (Nat.le_zero.mp hs)
    subst hnil
    simp [encModel, decodeLoopF_nil]
  | succ m ih =>
    intro s hs hsup f
    cases s with
    | nil => simp [encModel, decodeLoopF_nil]
    | cons b s2 =>
      have hs2 : s2.length ≤ m := by simpa using hs
      have hsup2 : Supported s2 := fun x hx => hsup x (List.mem_cons_of_mem _ hx)
      have hsb : SupportedByte b := hsup b (List.mem_cons_self _ _)
      by_cases hup : 65 ≤ b ∧ b ≤ 90
      · -- an Upper run starts here
        have hsplit : b :: s2 =
            (b :: s2.takeWhile (fun x => decide (65 ≤ x ∧ x ≤ 90))) ++
              s2.dropWhile (fun x => decide (65 ≤ x ∧ x ≤ 90)) := by
          rw [List.cons_append, List.takeWhile_append_dropWhile]
        have hallus : ∀ u ∈ b :: s2.takeWhile (fun x => decide (65 ≤ x ∧ x ≤ 90)),
            65 ≤ u ∧ u ≤ 90 := by
          intro u hu
          rcases List.mem_cons.mp hu with rfl | hu2
          · exact hup
          · have hx := List.mem_takeWhile_imp hu2
            simpa using hx
        cases hre : s2.dropWhile (fun x => decide (65 ≤ x ∧ x ≤ 90)) with
        | nil =>
          have hEq : encModel [] (b :: s2) =
              unres (b :: s2.takeWhile (fun x => decide (65 ≤ x ∧ x ≤ 90))) := by
            rw [hsplit, hre, List.append_nil]
            rw [encModel_all_up _ [] (by simp) hallus]
            simp
          rw [hEq, unres_length, decB4 _ f hallus]
          rw [hsplit, hre, List.append_nil]
        | cons c s3 =>
          have hpc := dropWhile_head_false (fun x => decide (65 ≤ x ∧ x ≤ 90)) s2 c s3 hre
          have hcnotup : ¬(65 ≤ c ∧ c ≤ 90) := by simpa using hpc
          have hcmem : c ∈ s2 := (List.dropWhile_sublist _).mem (by
            rw [hre]; exact List.mem_cons_self _ _)
          have hsupc : SupportedByte c := hsup c (List.mem_cons_of_mem _ hcmem)
          have hs3sub : List.Sublist s3 s2 := by
            have h1 : List.Sublist s3 (c :: s3) := List.sublist_cons_self c s3
            have h2 : List.Sublist (c :: s3) s2 := by
              rw [← hre]; exact List.dropWhile_sublist _
            exact h1.trans h2
          have hsup3 : Supported s3 := fun x hx =>
            hsup x (List.mem_cons_of_mem _ (hs3sub.mem hx))
          have hs3len : s3.length ≤ m := by
            have h2 : (c :: s3).length ≤ s2.length := by
              rw [← hre]; exact (List.dropWhile_sublist _).length_le
            simp at h2
            omega
          have hchain : encModel [] (b :: s2) =
              resolve (b :: s2.takeWhile (fun x => decide (65 ≤ x ∧ x ≤ 90))) ++
                bfrag (b :: s2.takeWhile (fun x => decide (65 ≤ x ∧ x ≤ 90))) c ++
                encModel [] s3 := by
            rw [hsplit, hre]
            rw [encModel_chain _ [] (c :: s3) hallus (by simp), List.nil_append]
            exact encModel_cons_nonup c _ s3 hcnotup
          cases htk : s2.takeWhile (fun x => decide (65 ≤ x ∧ x ≤ 90)) with
          | nil =>
            -- run of length 1: Title rewrite
            rw [htk] at hchain hsplit
            have hbf : bfrag [b] c = [c] := by simp [bfrag]
            have hto : encModel [] (b :: s2) = 84 :: (b + 32) :: c :: encModel [] s3 := by
              rw [hchain, hbf]
              simp [resolve]
            have hcb : c ≤ 122 ∧ c ≠ 85 ∧ c ≠ 84 ∧ c ≠ 76 := by
              rcases hsupc with h | h | h | h | h
              · exact absurd h hcnotup
              all_goals constructor <;> omega
            have hfl : (84 :: (b + 32) :: c :: encModel [] s3).length + f =
                (((encModel [] s3).length + (f + 1)) + 1) + 1 := by
              simp
              omega
            rw [hto, hfl, decB2 _ _ _ (by omega) (by omega)]
            rw [decB1 _ c _ hcb.2.1 hcb.2.2.1 hcb.2.2.2]
            rw [ih s3 hs3len hsup3 (f + 1)]
            have hb : b + 32 - 32 = b := by omega
            rw [hb, hsplit, hre]
            simp
          | cons v tl =>
            -- run of length ≥ 2
            rw [htk] at hchain hsplit hallus
            have hres : resolve (b :: v :: tl) =
                85 :: (b + 32) :: (v :: tl).map (· + 32) := rfl
            have hfs : ∀ x ∈ (v :: tl).map (· + 32), 97 ≤ x ∧ x ≤ 122 := by
              intro x hx
              obtain ⟨y, hy, rfl⟩ := List.mem_map.mp hx
              have := hallus y (List.mem_cons_of_mem _ hy)
              constructor <;> omega
            have hmapmap : ((v :: tl).map (· + 32)).map (· - 32) = v :: tl := by
              rw [List.map_map]
              conv_rhs => rw [← List.map_id (v :: tl)]
              refine List.map_congr_left ?_
              intro x _
              simp
            by_cases hps : (33 ≤ c ∧ c ≤ 47) ∨ c = 32
            · -- punctuation or space terminator: no marker
              have hbf : bfrag (b :: v :: tl) c = [c] := by simp [bfrag, hps]
              have hcbound : c ≤ 47 := by rcases hps with ⟨-, h⟩ | rfl <;> omega
              have hto : encModel [] (b :: s2) =
                  85 :: (b + 32) :: ((v :: tl).map (· + 32) ++ (c :: encModel [] s3)) := by
                rw [hchain, hres, hbf]
                simp
              have ht : (c :: encModel [] s3 = []) ∨
                  ∃ h tt, c :: encModel [] s3 = h :: tt ∧ ¬(97 ≤ h ∧ h ≤ 122) :=
                Or.inr ⟨c, encModel [] s3, rfl, by omega⟩
              have hfl : (85 :: (b + 32) ::
                    ((v :: tl).map (· + 32) ++ (c :: encModel [] s3))).length + f =
                  (((v :: tl).map (· + 32)).length + 2) + ((encModel [] s3).length + f + 1) := by
                simp
                omega
              rw [hto, hfl, decB3 _ _ _ _ ⟨by omega, by omega⟩ hfs ht]
              have hfl2 : (encModel [] s3).length + f + 1 = ((encModel [] s3).length + f) + 1 := rfl
              rw [hfl2, decB1 _ c _ (by omega) (by omega) (by omega)]
              rw [ih s3 hs3len hsup3 f, hmapmap]
              have hb : b + 32 - 32 = b := by omega
              rw [hb, hsplit, hre]
              simp
            · -- lower/neutral terminator: boundary marker, then the literal
              have h1len : 1 < (b :: v :: tl).length := by simp
              have hbf : bfrag (b :: v :: tl) c = [76, c] := by
                simp [bfrag, hps, h1len]
              have hcld : (97 ≤ c ∧ c ≤ 122) ∨ (48 ≤ c ∧ c ≤ 57) := by
                rcases hsupc with h | h | h | h | h
                · exact absurd h hcnotup
                · exact Or.inl h
                · exact absurd (Or.inr h) hps
                · exact absurd (Or.inl h) hps
                · exact Or.inr h
              have hc85 : c ≠ 85 := by rcases hcld with h | h <;> omega
              have hc84 : c ≠ 84 := by rcases hcld with h | h <;> omega
              have hc76 : c ≠ 76 := by rcases hcld with h | h <;> omega
              have hto : encModel [] (b :: s2) =
                  85 :: (b + 32) ::
                    ((v :: tl).map (· + 32) ++ (76 :: c :: encModel [] s3)) := by
                rw [hchain, hres, hbf]
                simp
              have ht : (76 :: c :: encModel [] s3 = []) ∨
                  ∃ h tt, 76 :: c :: encModel [] s3 = h :: tt ∧ ¬(97 ≤ h ∧ h ≤ 122) :=
                Or.inr ⟨76, c :: encModel [] s3, rfl, by omega⟩
              have hfl : (85 :: (b + 32) ::
                    ((v :: tl).map (· + 32) ++ (76 :: c :: encModel [] s3))).length + f =
                  (((v :: tl).map (· + 32)).length + 2) +
                    ((encModel [] s3).length + f + 2) := by
                simp
                omega
              rw [hto, hfl, decB3 _ _ _ _ ⟨by omega, by omega⟩ hfs ht]
              have hfl2 : (encModel [] s3).length + f + 2 =
                  (((encModel [] s3).length + f) + 1) + 1 := rfl
              rw [hfl2, decBm, decB1 _ c _ hc85 hc84 hc76]
              rw [ih s3 hs3len hsup3 f, hmapmap]
              have hb : b + 32 - 32 = b := by omega
              rw [hb, hsplit, hre]
              simp
      · -- no run: single pass-through byte
        have hb85 : b ≠ 85 := by rintro rfl; exact hup ⟨by omega, by omega⟩
        have hb84 : b ≠ 84 := by rintro rfl; exact hup ⟨by omega, by omega⟩
        have hb76 : b ≠ 76 := by rintro rfl; exact hup ⟨by omega, by omega⟩
        have hE : encModel [] (b :: s2) = b :: encModel [] s2 := by
          rw [encModel_cons_nonup b [] s2 hup]
          simp [resolve, bfrag]
        rw [hE]
        have hlen : (b :: encModel [] s2).length + f = ((encModel [] s2).length + f) + 1 := by
          simp
          omega
        rw [hlen, decB1 _ b _ hb85 hb84 hb76]
        rw [ih s2 hs2 hsup2 f]

/-! ## Driver-protocol trace invariant -/

theorem stripTails_isSome (n : Nat) : ∀ (l : List (List Nat × Nat)), n ≤ l.length →
    (∀ q ∈ l, ∃ r, q.1 = 85 :: r) → ∃ out, stripTails n l = some out := by
  induction n with
  | zero => exact fun l _ _ => ⟨l, rfl⟩
  | succ k ih =>
    intro l hlen hall
    cases l with
    | nil => simp at hlen
    | cons q rest =>
      obtain ⟨qf, qn⟩ := q
      obtain ⟨r, hq⟩ := hall (qf, qn) (List.mem_cons_self _ _)
      simp only at hq
      subst hq
      obtain ⟨out, hout⟩ := ih rest (by simp at hlen; omega)
        (fun x hx => hall x (List.mem_cons_of_mem _ hx))
      exact ⟨(r, qn) :: out, by simp [stripTails, hout]⟩

theorem fixUs_isSome (s : EncState) (hg : s.pieces.length = s.countU)
    (hall : ∀ q ∈ s.pieces, ∃ r, q.1 = 85 :: r) : ∃ t, fixUs s = some t := by
  unfold fixUs
  by_cases h1 : s.countU = 1
  · rw [if_pos h1]
    cases hp : s.pieces with
    | nil => rw [hp] at hg; rw [h1] at hg; simp at hg
    | cons q rest =>
      obtain ⟨qf, qn⟩ := q
      obtain ⟨r, hq⟩ := hall (qf, qn) (by rw [hp]; exact List.mem_cons_self _ _)
      simp only at hq
      subst hq
      exact ⟨{ s with buffers := s.buffers ++ [84 :: r], pieces := (84 :: r, qn) :: rest }, rfl⟩
  · rw [if_neg h1]
    by_cases h2 : 1 < s.countU
    · rw [if_pos h2]
      cases hp : s.pieces with
      | nil => rw [hp] at hg; simp at hg; omega
      | cons q rest =>
        have hlen : s.countU - 1 ≤ rest.length := by
          rw [hp] at hg; simp at hg; omega
        obtain ⟨rr, hrr⟩ := stripTails_isSome (s.countU - 1) rest hlen
          (fun x hx => hall x (by rw [hp]; exact List.mem_cons_of_mem _ hx))
        exact ⟨{ s with pieces := q :: rr }, by simp [hrr]⟩
    · rw [if_neg h2]
      exact ⟨s, rfl⟩

theorem traceGen (us : List (List Nat × Nat)) : ∀ (s0 : EncState),
    s0.pieces.length = s0.countU → (∀ q ∈ s0.pieces, ∃ r, q.1 = 85 :: r) →
    (∀ u ∈ us, u.1 ≠ []) →
    ∃ t, List.foldlM stepT s0 us = some t ∧
      t.pieces = us.foldl (fun acc u => if u.1.head? = some 85 then acc ++ [u] else [])
          s0.pieces ∧
      t.pieces.length = t.countU ∧ (∀ q ∈ t.pieces, ∃ r, q.1 = 85 :: r) := by
  induction us with
  | nil => intro s0 h1 h2 _; exact ⟨s0, rfl, rfl, h1, h2⟩
  | cons u us ih =>
    intro s0 h1 h2 hne
    obtain ⟨u1, u2⟩ := u
    cases hu1 : u1 with
    | nil =>
      exact absurd (by simp [hu1]) (hne (u1, u2) (List.mem_cons_self _ _))
    | cons b fr =>
      subst hu1
      by_cases hb : b = 85
      · subst hb
        have hstep : stepT s0 (85 :: fr, u2) = some
            { s0 with pieces := s0.pieces ++ [(85 :: fr, u2)], countU := s0.countU + 1,
                      flush := false } := by
          simp [stepT, push_up fr u2 false s0, drain_eq]
        obtain ⟨t, ht, htp, htl, hta⟩ := ih
          { s0 with pieces := s0.pieces ++ [(85 :: fr, u2)], countU := s0.countU + 1,
                    flush := false }
          (by simp [h1])
          (by
            intro q hq
            simp only at hq
            rcases List.mem_append.mp hq with h | h
            · exact h2 q h
            · simp at h
              subst h
              exact ⟨fr, rfl⟩)
          (fun x hx => hne x (List.mem_cons_of_mem _ hx))
        refine ⟨t, ?_, ?_, htl, hta⟩
        · rw [List.foldlM_cons, hstep]
          simpa using ht
        · rw [htp, List.foldl_cons]
          simp
      · obtain ⟨tf, htf⟩ := fixUs_isSome s0 h1 h2
        have hstep : ∃ t1, stepT s0 (b :: fr, u2) = some t1 ∧
            t1.pieces = [] ∧ t1.countU = 0 := by
          by_cases h80 : b = 80
          · subst h80
            refine ⟨⟨tf.buffers, [], true, 0⟩, ?_, rfl, rfl⟩
            simp [stepT, push_punct fr u2 false s0 tf htf, drain_eq]
          · by_cases h32 : b = 32
            · subst h32
              refine ⟨⟨tf.buffers, [], true, 0⟩, ?_, rfl, rfl⟩
              simp [stepT, push_space fr u2 false s0 tf htf, drain_eq]
            · by_cases hcu : 1 < s0.countU
              · refine ⟨⟨tf.buffers ++ [76 :: b :: fr], [], true, 0⟩, ?_, rfl, rfl⟩
                simp [stepT, push_other b fr u2 false s0 tf hb h80 h32 htf, drain_eq, hcu]
              · refine ⟨⟨tf.buffers, [], true, 0⟩, ?_, rfl, rfl⟩
                simp [stepT, push_other b fr u2 false s0 tf hb h80 h32 htf, drain_eq, hcu]
        obtain ⟨t1, ht1, ht1p, ht1c⟩ := hstep
        obtain ⟨t, ht, htp, htl, hta⟩ := ih t1 (by simp [ht1p, ht1c])
          (by rw [ht1p]; intro q hq; simp at hq)
          (fun x hx => hne x (List.mem_cons_of_mem _ hx))
        refine ⟨t, ?_, ?_, htl, hta⟩
        · rw [List.foldlM_cons, ht1]
          simpa using ht
        · rw [htp, List.foldl_cons, ht1p]
          simp [hb]

/-! ## Per-index specification of the strip loop -/

theorem stripTails_spec (n : Nat) : ∀ (l out : List (List Nat × Nat)),
    stripTails n l = some out →
    out.length = l.length ∧ ∀ i, out.get? i =
      if i < n then (l.get? i).map (fun q => (q.1.tail, q.2)) else l.get? i := by
  induction n with
  | zero =>
    intro l out h
    simp [stripTails] at h
    subst h
    simp
  | succ k ih =>
    intro l out h
    cases l with
    | nil => simp [stripTails] at h
    | cons q rest =>
      obtain ⟨qf, qn⟩ := q
      cases hqf : qf with
      | nil => rw [hqf] at h; simp [stripTails] at h
      | cons b ft =>
        rw [hqf] at h
        simp only [stripTails] at h
        cases hrec : stripTails k rest with
        | none => rw [hrec] at h; simp at h
        | some r =>
          rw [hrec] at h
          simp at h
          subst h
          obtain ⟨hl, hg⟩ := ih rest r hrec
          constructor
          · simp [hl]
          · intro i
            cases i with
            | zero => simp
            | succ j =>
              have := hg j
              simp only [List.get?_cons_succ]
              rw [this]
              by_cases hj : j < k
              · rw [if_pos hj, if_pos (by omega)]
              · rw [if_neg hj, if_neg (by omega)]

/-! ## Pass-through sessions (no Upper-tagged unit) -/

theorem c3_gen (us : List (List Nat × Nat)) : ∀ (B : List (List Nat)) (fl : Bool),
    (∀ u ∈ us, u.1 ≠ [] ∧ u.1.head? ≠ some 85) →
    sessionLoop us ⟨B, [], fl, 0⟩ =
      some (us.map (fun u => if u.1.head? = some 80 then (u.1.tail, u.2) else u)) := by
  induction us with
  | nil => intro B fl _; rfl
  | cons u us ih =>
    intro B fl hall
    obtain ⟨hne, hn85⟩ := hall u (List.mem_cons_self _ _)
    obtain ⟨u1, u2⟩ := u
    cases hu1 : u1 with
    | nil => exact absurd (by simp [hu1]) hne
    | cons b fr =>
      subst hu1
      have hb85 : b ≠ 85 := by
        intro hb
        subst hb
        exact hn85 (by simp)
      have hfix : fixUs ⟨B, [], fl, 0⟩ = some ⟨B, [], fl, 0⟩ := rfl
      have hpush : ∀ last, push (b :: fr, u2) last ⟨B, [], fl, 0⟩ =
          some ⟨B, [if b = 80 then (fr, u2) else (b :: fr, u2)], true, 0⟩ := by
        intro last
        by_cases h80 : b = 80
        · subst h80
          rw [push_punct fr u2 last _ _ hfix]
          simp
        · by_cases h32 : b = 32
          · subst h32
            rw [push_space fr u2 last _ _ hfix]
            simp
          · rw [push_other b fr u2 last _ _ hb85 h80 h32 hfix]
            simp [h80]
      have hmap : (if ((b :: fr, u2) : List Nat × Nat).1.head? = some 80
          then (((b :: fr, u2) : List Nat × Nat).1.tail, u2) else (b :: fr, u2)) =
          (if b = 80 then ((fr, u2) : List Nat × Nat) else (b :: fr, u2)) := by
        by_cases h80 : b = 80 <;> simp [h80]
      cases us with
      | nil =>
        simp only [sessionLoop, hpush true]
        rw [drain_eq]
        simp only [List.map_cons, List.map_nil, hmap]
        simp
      | cons v vs =>
        simp only [sessionLoop, hpush false]
        rw [drain_eq]
        simp only [if_pos]
        have hrec := ih B true (fun x hx => hall x (List.mem_cons_of_mem _ hx))
        simp only [List.map_cons] at hrec ⊢
        simp [hrec, hmap]

/-! ## No marker byte inside a resolved run -/

theorem count76_resolve (us : List Nat) (hall : ∀ u ∈ us, 65 ≤ u ∧ u ≤ 90) :
    (resolve us).count 76 = 0 := by
  rw [List.count_eq_zero]
  intro hmem
  cases us with
  | nil => simp [resolve] at hmem
  | cons u tl =>
    cases tl with
    | nil =>
      have hu := hall u (List.mem_cons_self _ _)
      rw [show resolve [u] = [84, u + 32] from rfl] at hmem
      rcases List.mem_cons.mp hmem with h | h
      · omega
      · rcases List.mem_cons.mp h with h2 | h2
        · omega
        · simp at h2
    | cons v tl2 =>
      rw [show resolve (u :: v :: tl2) = 85 :: (u + 32) :: (v :: tl2).map (· + 32) from rfl]
        at hmem
      rcases List.mem_cons.mp hmem with h | h
      · omega
      · rcases List.mem_cons.mp h with h2 | h2
        · have hu := hall u (List.mem_cons_self _ _)
          omega
        · obtain ⟨y, hy, hy2⟩ := List.mem_map.mp h2
          have hyb := hall y (List.mem_cons_of_mem _ hy)
          omega

/-! ## Claim theorems -/

/-- C1: for every supported input `s`, the Upper-run Decoder is a strict
left inverse of the Upper-run Encoder: pushing `s` through the Encoder and
feeding the encoded tag stream through the Decoder reconstructs `s`
exactly, `decode (encode s) = s`. -/
theorem decode_encode_roundTrip (s bs : List Nat) (hsup : Supported s)
    (henc : encode s = some bs) : decode bs = s := by
  rw [encode_eq s] at henc
  injection henc with h
  subst h
  rw [decode]
  have hmain := decM s.length s le_rfl hsup ((encModel [] s).length + 2)
  rw [show 2 * (encModel [] s).length + 2 =
    (encModel [] s).length + ((encModel [] s).length + 2) by omega]
  exact hmain

/-- Witness for C1 at the spec's own example "HELLO world": it encodes to
"Uhello world" and decodes back exactly. -/
theorem decode_encode_roundTrip_witness :
    Supported [72, 69, 76, 76, 79, 32, 119, 111, 114, 108, 100] ∧
    encode [72, 69, 76, 76, 79, 32, 119, 111, 114, 108, 100] =
      some [85, 104, 101, 108, 108, 111, 32, 119, 111, 114, 108, 100] ∧
    decode [85, 104, 101, 108, 108, 111, 32, 119, 111, 114, 108, 100] =
      [72, 69, 76, 76, 79, 32, 119, 111, 114, 108, 100] :=
  ⟨by decide, by decide,
    decode_encode_roundTrip _ _ (by decide) (by decide)⟩

/-- C2 counterexample: encoding "HELLO world" (and "AB-CD") emits no
Lower boundary-marker byte (76) anywhere in the output — the run
terminated by a space (resp. by punctuation or end of input) gets no
marker, contradicting the claim that exactly one marker follows every
resolved run regardless of the terminating boundary. -/
theorem boundary_marker_missing_cex :
    encode [72, 69, 76, 76, 79, 32, 119, 111, 114, 108, 100] =
      some [85, 104, 101, 108, 108, 111, 32, 119, 111, 114, 108, 100] ∧
    ([85, 104, 101, 108, 108, 111, 32, 119, 111, 114, 108, 100] : List Nat).count 76 = 0 ∧
    encode [65, 66, 45, 67, 68] = some [85, 97, 98, 45, 85, 99, 85, 100] ∧
    ([85, 97, 98, 45, 85, 99, 85, 100] : List Nat).count 76 = 0 :=
  ⟨by decide, by decide, by decide, by decide⟩

/-- C2 (amended): a zero-width Lower boundary marker is emitted only when a
run of length ≥ 2 is terminated by a Lower/Neutral unit, where exactly one
marker byte is prepended to that unit's fragment; runs terminated by a
space or by punctuation resolve without any marker, and a run still
unresolved at end of input is flushed with every unit still Upper-tagged
(and no marker). -/
theorem marker_only_lower_neutral_boundary (us : List Nat) (c : Nat)
    (hne : us ≠ []) (hall : ∀ u ∈ us, 65 ≤ u ∧ u ≤ 90) (hlen : 2 ≤ us.length) :
    ((97 ≤ c ∧ c ≤ 122) ∨ (48 ≤ c ∧ c ≤ 57) →
      encode (us ++ [c]) = some (resolve us ++ [76, c]) ∧
      (resolve us ++ [76, c]).count 76 = 1) ∧
    encode (us ++ [32]) = some (resolve us ++ [32]) ∧
    (33 ≤ c ∧ c ≤ 47 → encode (us ++ [c]) = some (resolve us ++ [c])) ∧
    encode us = some (unres us) := by
  have h1 : ∀ c2 : Nat, ¬(65 ≤ c2 ∧ c2 ≤ 90) →
      encode (us ++ [c2]) = some (resolve us ++ bfrag us c2) := by
    intro c2 hc2
    rw [encode_eq]
    congr 1
    rw [encModel_chain us [] [c2] hall (by simp), List.nil_append]
    simp only [encModel]
    rw [if_neg hc2]
  refine ⟨?_, ?_, ?_, ?_⟩
  · intro hc
    have hcnot : ¬(65 ≤ c ∧ c ≤ 90) := by rcases hc with h | h <;> omega
    have hnp : ¬((33 ≤ c ∧ c ≤ 47) ∨ c = 32) := by
      rintro (⟨ha, hb⟩ | rfl) <;> rcases hc with h | h <;> omega
    have hl2 : 1 < us.length := by omega
    have hbf : bfrag us c = [76, c] := by simp [bfrag, hnp, hl2]
    constructor
    · rw [h1 c hcnot, hbf]
    · rw [List.count_append, count76_resolve us hall]
      have hc76 : c ≠ 76 := by rcases hc with h | h <;> omega
      simp [List.count_cons, hc76]
  · have h32 : ¬(65 ≤ 32 ∧ 32 ≤ 90) := by omega
    rw [h1 32 h32]
    have : bfrag us 32 = [32] := by simp [bfrag]
    rw [this]
  · intro hc
    have hcnot : ¬(65 ≤ c ∧ c ≤ 90) := by omega
    have hbf : bfrag us c = [c] := by simp [bfrag, hc]
    rw [h1 c hcnot, hbf]
  · rw [encode_eq]
    congr 1
    rw [encModel_all_up us [] hne hall]
    simp

/-- Witness for the amended C2 at the run "HE" with terminators x, space,
-, and end of input. -/
theorem marker_only_lower_neutral_boundary_witness :
    encode [72, 69, 120] = some (resolve [72, 69] ++ [76, 120]) ∧
    (resolve [72, 69] ++ [76, 120]).count 76 = 1 ∧
    encode [72, 69, 32] = some (resolve [72, 69] ++ [32]) ∧
    encode [72, 69, 45] = some (resolve [72, 69] ++ [45]) ∧
    encode [72, 69] = some (unres [72, 69]) := by
  have hx := marker_only_lower_neutral_boundary [72, 69] 120 (by decide) (by decide) (by decide)
  have hd := marker_only_lower_neutral_boundary [72, 69] 45 (by decide) (by decide) (by decide)
  exact ⟨(hx.1 (Or.inl (by decide))).1, (hx.1 (Or.inl (by decide))).2, hx.2.1,
    hd.2.2.1 (by decide), hx.2.2.2⟩

/-- C3 counterexample: a session consisting of the single Punctuation-tagged
unit "P-" pops the fragment "-" — the leading tag byte is stripped, so the
popped fragment is not byte-identical to the pushed one. -/
theorem punct_not_byte_identical_cex :
    sessionLoop [([80, 45], 1)] encInit = some [([45], 1)] ∧
    (([45], 1) : List Nat × Nat) ≠ ([80, 45], 1) :=
  ⟨by decide, by decide⟩

/-- C3 (amended): in a session with no Upper-tagged unit, every popped unit
equals the pushed one — same fragment bytes, same consumed count — except
that a Punctuation-tagged fragment is emitted with its leading tag byte
stripped; in particular no boundary-marker unit is ever inserted. -/
theorem no_upper_passthrough (us : List (List Nat × Nat))
    (h : ∀ u ∈ us, u.1 ≠ [] ∧ u.1.head? ≠ some 85) :
    sessionLoop us encInit =
      some (us.map (fun u => if u.1.head? = some 80 then (u.1.tail, u.2) else u)) :=
  c3_gen us [] false h

/-- Witness for the amended C3: "P-", "a", " " pass through with only the
P tag stripped. -/
theorem no_upper_passthrough_witness :
    sessionLoop [([80, 45], 1), ([97], 1), ([32], 1)] encInit =
      some [([45], 1), ([97], 1), ([32], 1)] := by
  have h := no_upper_passthrough [([80, 45], 1), ([97], 1), ([32], 1)] (by decide)
  simpa using h

/-- C4 counterexample: one call of the Upper-run Decoder's normalize-prefix
method on input "Ua" changes the internal state — it allocates the buffer,
advances and rewrites the view to "U", and enters the in-run state — so
the claim that every variant's method performs no state change is false. -/
theorem decoder_normalize_mutates_cex :
    decCall decInit [85, 97] = some (([65], 2), ⟨true, [85], true⟩) ∧
    (⟨true, [85], true⟩ : DecState) ≠ decInit :=
  ⟨by decide, by decide⟩

/-- C4 (amended): the Identity codec and the Upper-run Encoder inherit the
base-class method, which purely delegates to the injected normalizer and
leaves every field unchanged; the Upper-run Decoder overrides it and does
mutate its internal state. -/
theorem delegation_frame :
    (∀ (nm : Normalizer) (s : IdSt) (input : List Nat),
      identDelegate nm s input = (nm input, s)) ∧
    (∀ (nm : Normalizer) (s : EncState) (input : List Nat),
      encDelegate nm s input = (nm input, s)) ∧
    (decCall decInit [85, 97]).map Prod.snd ≠ some decInit :=
  ⟨fun _ _ _ => rfl, fun _ _ _ => rfl, by decide⟩

/-- C5 counterexample: after push and pop the Identity codec is empty, yet a
second pop neither traps nor asserts — it returns the previously-popped
unit a second time. -/
theorem identity_pop_stale_cex :
    idEmpty (idPop (idPush ([97], 1) true idInit)).2 = true ∧
    idPop (idPop (idPush ([97], 1) true idInit)).2 = (([97], 1), ⟨([97], 1), true⟩) :=
  ⟨rfl, rfl⟩

/-- C5 (amended): `pop()` is unguarded.  The Identity codec's pop always
returns the held slot (stale after the first pop) and never traps; the
Upper-run Encoder's pop on an empty queue is undefined behaviour (modelled
as failure), and on a non-empty queue with the flush flag unset it returns
a unit even though `empty()` is true. -/
theorem pop_unguarded :
    (∀ s : IdSt, idPop s = (s.p, ⟨s.p, true⟩)) ∧
    (∀ s : EncState, s.pieces = [] → pop s = none) ∧
    (∀ (s : EncState) (q : List Nat × Nat) (rest : List (List Nat × Nat)),
      s.pieces = q :: rest → s.flush = false →
      emptyE s = true ∧ pop s = some (q, { s with pieces := rest })) := by
  refine ⟨fun s => rfl, ?_, ?_⟩
  · intro s hp
    simp [pop, hp]
  · intro s q rest hp hf
    constructor
    · simp [emptyE, hp, hf]
    · simp [pop, hp]

/-- Witness for the amended C5 at concrete encoder states. -/
theorem pop_unguarded_witness :
    pop ⟨[], [], true, 0⟩ = none ∧
    emptyE ⟨[], [([97], 1)], false, 0⟩ = true ∧
    pop ⟨[], [([97], 1)], false, 0⟩ = some (([97], 1), ⟨[], [], false, 0⟩) := by
  refine ⟨pop_unguarded.2.1 _ rfl, (pop_unguarded.2.2 _ ([97], 1) [] rfl rfl).1, ?_⟩
  have h := (pop_unguarded.2.2 ⟨[], [([97], 1)], false, 0⟩ ([97], 1) [] rfl rfl).2
  simpa using h

/-- C7: the factory rejects encode+decode together (no codec constructed),
returns the Upper-run Encoder for encode only, the Upper-run Decoder for
decode only (a real capability, not a pass-through), and the Identity codec
when neither flag is set. -/
theorem create_factory :
    Create true true = none ∧ Create true false = some CodecKind.encoder ∧
    Create false true = some CodecKind.decoder ∧
    Create false false = some CodecKind.identity :=
  ⟨rfl, rfl, rfl, rfl⟩

/-- C6: when `fixUs` resolves a pending run: with run counter 1 the single
buffered Upper unit's fragment is replaced by a freshly allocated owned
copy (appended to `buffers_`) whose first byte is set to Title, every other
queued unit and the pre-existing buffers staying untouched; with run
counter > 1 every queued unit at positions 1 .. countU-1 has its leading
tag byte stripped while the first unit and all units past the run are
unchanged; with run counter 0 nothing changes at all. -/
theorem fixUs_rewrites (s t : EncState) (h : fixUs s = some t) :
    (s.countU = 0 → t = s) ∧
    (s.countU = 1 → ∃ b ft n rest, s.pieces = (b :: ft, n) :: rest ∧
      t.pieces = (84 :: ft, n) :: rest ∧ t.buffers = s.buffers ++ [84 :: ft] ∧
      t.flush = s.flush ∧ t.countU = s.countU) ∧
    (1 < s.countU → t.buffers = s.buffers ∧ t.flush = s.flush ∧ t.countU = s.countU ∧
      t.pieces.length = s.pieces.length ∧ t.pieces.head? = s.pieces.head? ∧
      (∀ i, 1 ≤ i → i < s.countU →
        t.pieces.get? i = (s.pieces.get? i).map (fun q => (q.1.tail, q.2))) ∧
      (∀ i, s.countU ≤ i → t.pieces.get? i = s.pieces.get? i)) := by
  refine ⟨?_, ?_, ?_⟩
  · intro h0
    unfold fixUs at h
    rw [if_neg (by omega), if_neg (by omega)] at h
    exact (Option.some.inj h).symm
  · intro h1
    unfold fixUs at h
    rw [if_pos h1] at h
    cases hp : s.pieces with
    | nil => rw [hp] at h; simp at h
    | cons q rest =>
      obtain ⟨qf, qn⟩ := q
      cases hqf : qf with
      | nil => rw [hp, hqf] at h; simp at h
      | cons b ft =>
        rw [hp, hqf] at h
        simp only at h
        have ht := (Option.some.inj h).symm
        subst ht
        exact ⟨b, ft, qn, rest, rfl, rfl, rfl, rfl, rfl⟩
  · intro h2
    unfold fixUs at h
    rw [if_neg (by omega), if_pos h2] at h
    cases hp : s.pieces with
    | nil => rw [hp] at h; simp at h
    | cons q rest =>
      rw [hp] at h
      simp only at h
      cases hst : stripTails (s.countU - 1) rest with
      | none => rw [hst] at h; simp at h
      | some r =>
        rw [hst] at h
        simp only at h
        have ht := (Option.some.inj h).symm
        subst ht
        obtain ⟨hl, hg⟩ := stripTails_spec (s.countU - 1) rest r hst
        refine ⟨rfl, rfl, rfl, by simp [hp, hl], by simp [hp], ?_, ?_⟩
        · intro i h1i hiu
          cases i with
          | zero => omega
          | succ j =>
            have hgj := hg j
            rw [if_pos (by omega)] at hgj
            simp only [hp, List.get?_cons_succ]
            exact hgj
        · intro i hi
          cases i with
          | zero => omega
          | succ j =>
            have hgj := hg j
            rw [if_neg (by omega)] at hgj
            simp only [hp, List.get?_cons_succ]
            exact hgj

/-- Witness for C6 on the buffered run "HI" (counter 2): the second queued
unit is tag-stripped, the first and the buffers are untouched. -/
theorem fixUs_rewrites_witness :
    fixUs ⟨[], [([85, 104], 1), ([85, 105], 1)], false, 2⟩ =
      some ⟨[], [([85, 104], 1), ([105], 1)], false, 2⟩ ∧
    (⟨[], [([85, 105], 1)], false, 0⟩ : EncState) =
      ⟨[], [([85, 105], 1)], false, 0⟩ ∧
    (⟨[], [([85, 104], 1), ([105], 1)], false, 2⟩ : EncState).buffers =
      (⟨[], [([85, 104], 1), ([85, 105], 1)], false, 2⟩ : EncState).buffers ∧
    (⟨[], [([85, 104], 1), ([105], 1)], false, 2⟩ : EncState).pieces.get? 1 =
      ((⟨[], [([85, 104], 1), ([85, 105], 1)], false, 2⟩ : EncState).pieces.get? 1).map
        (fun q => (q.1.tail, q.2)) := by
  have h := fixUs_rewrites ⟨[], [([85, 104], 1), ([85, 105], 1)], false, 2⟩
    ⟨[], [([85, 104], 1), ([105], 1)], false, 2⟩ (by decide)
  exact ⟨by decide, rfl, (h.2.2 (by decide)).1,
    (h.2.2 (by decide)).2.2.2.2.2.1 1 (by decide) (by decide)⟩

/-- C8: a successful push with `isLast = true` leaves the flush flag set and
the queue non-empty (push always enqueues), so `empty()` is false; draining
yields exactly the queued units, after which the queue is empty, `empty()`
is true, and a further pop has nothing to return — one final complete
drain. -/
theorem final_flush_drain (p : List Nat × Nat) (s s2 : EncState)
    (h : push p true s = some s2) :
    s2.flush = true ∧ s2.pieces ≠ [] ∧ emptyE s2 = false ∧
    (drain s2).1 = s2.pieces ∧ (drain s2).2.pieces = [] ∧
    emptyE (drain s2).2 = true ∧ pop (drain s2).2 = none := by
  have hshape : s2.flush = true ∧ ∃ Y z, s2.pieces = Y ++ [z] := by
    obtain ⟨p1, p2⟩ := p
    cases p1 with
    | nil => simp [push] at h
    | cons b rest =>
      by_cases hb85 : b = 85
      · subst hb85
        rw [push_up] at h
        injection h with h
        subst h
        exact ⟨rfl, s.pieces, _, rfl⟩
      · cases hf : fixUs s with
        | none => simp [push, hb85, hf] at h
        | some t =>
          by_cases hb80 : b = 80
          · subst hb80
            rw [push_punct rest p2 true s t hf] at h
            injection h with h
            subst h
            exact ⟨rfl, t.pieces, _, rfl⟩
          · by_cases hb32 : b = 32
            · subst hb32
              rw [push_space rest p2 true s t hf] at h
              injection h with h
              subst h
              exact ⟨rfl, t.pieces, _, rfl⟩
            · rw [push_other b rest p2 true s t hb85 hb80 hb32 hf] at h
              injection h with h
              subst h
              by_cases hc : 1 < s.countU
              · exact ⟨by simp [hc], t.pieces, (76 :: b :: rest, p2), by simp [hc]⟩
              · exact ⟨by simp [hc], t.pieces, (b :: rest, p2), by simp [hc]⟩
  obtain ⟨hfl, Y, z, hp⟩ := hshape
  refine ⟨hfl, by simp [hp], ?_, ?_, ?_, ?_, ?_⟩
  · simp [emptyE, hp, hfl]
  · simp [drain_eq, hfl]
  · simp [drain_eq, hfl]
  · simp [drain_eq, hfl, emptyE]
  · simp [drain_eq, hfl, pop]

/-- Witness for C8: pushing the final plain unit "a" into a fresh encoder. -/
theorem final_flush_drain_witness :
    push ([97], 1) true encInit = some ⟨[], [([97], 1)], true, 0⟩ ∧
    emptyE ⟨[], [([97], 1)], true, 0⟩ = false ∧
    pop (drain ⟨[], [([97], 1)], true, 0⟩).2 = none := by
  have h := final_flush_drain ([97], 1) encInit ⟨[], [([97], 1)], true, 0⟩ (by decide)
  exact ⟨by decide, h.2.2.1, h.2.2.2.2.2.2⟩

/-- C9: under the driver protocol (push, then drain whatever is eligible),
the pending queue always holds exactly the Upper-tagged units of the
current unresolved run, in push order — so `countU_` equals the queue
length, every queued unit is Upper-tagged, and `fixUs`'s indices
0 .. countU_-1 address exactly the units of the run. -/
theorem run_queue_invariant (us : List (List Nat × Nat)) (s : EncState)
    (hne : ∀ u ∈ us, u.1 ≠ []) (hrun : runTrace us = some s) :
    s.pieces = upperSuffix us ∧ s.countU = (upperSuffix us).length ∧
    ∀ q ∈ s.pieces, q.1.head? = some 85 := by
  obtain ⟨t, ht, htp, htl, hta⟩ := traceGen us encInit rfl
    (by intro q hq; simp [encInit] at hq) hne
  simp only [runTrace] at hrun
  rw [ht] at hrun
  injection hrun with hrun
  subst hrun
  have hinit : encInit.pieces = ([] : List (List Nat × Nat)) := rfl
  rw [hinit] at htp
  have hsuf : upperSuffix us =
      us.foldl (fun acc u => if u.1.head? = some 85 then acc ++ [u] else []) [] := rfl
  refine ⟨by rw [htp, hsuf], by rw [← htl, htp, hsuf], ?_⟩
  intro q hq
  obtain ⟨r, hr⟩ := hta q hq
  simp [hr]

/-- Witness for C9 on the pushed trace "Uh", "Ui". -/
theorem run_queue_invariant_witness :
    runTrace [([85, 104], 1), ([85, 105], 1)] =
      some ⟨[], [([85, 104], 1), ([85, 105], 1)], false, 2⟩ ∧
    (⟨[], [([85, 104], 1), ([85, 105], 1)], false, 2⟩ : EncState).pieces =
      upperSuffix [([85, 104], 1), ([85, 105], 1)] := by
  refine ⟨by decide, ?_⟩
  exact (run_queue_invariant [([85, 104], 1), ([85, 105], 1)]
    ⟨[], [([85, 104], 1), ([85, 105], 1)], false, 2⟩ (by decide) (by decide)).1

/-- C10: `push` reads the first byte of the pushed fragment unconditionally,
so it fails (models the out-of-bounds/null read) exactly on an empty
fragment; along the driver protocol every push of a non-empty fragment
succeeds — the shared contract's "push never fails" holds precisely for
non-empty fragments. -/
theorem push_total_iff_nonempty :
    (∀ (n : Nat) (last : Bool) (s : EncState), push ([], n) last s = none) ∧
    (∀ us : List (List Nat × Nat), (∀ u ∈ us, u.1 ≠ []) →
      (runTrace us).isSome = true) := by
  constructor
  · intro n last s
    rfl
  · intro us hne
    obtain ⟨t, ht, -, -, -⟩ := traceGen us encInit rfl
      (by intro q hq; simp [encInit] at hq) hne
    simp [runTrace, ht]

/-- Witness for C10: pushing an empty fragment fails; a trace of non-empty
fragments succeeds. -/
theorem push_total_iff_nonempty_witness :
    push ([], 0) false encInit = none ∧
    (runTrace [([80, 45], 1), ([85, 104], 1)]).isSome = true :=
  ⟨push_total_iff_nonempty.1 0 false encInit,
    push_total_iff_nonempty.2 [([80, 45], 1), ([85, 104], 1)] (by decide)⟩
